import Mathlib

/-!
Verification development for the `dom_master` reactive template engine
(`src/dommaster.js`).

The operations the claims are about are shallowly embedded here:

* JavaScript runtime values are modelled by `JSValue`: an inductive with the
  primitives the engine manipulates, a `nan` element (the one number value
  that is not strict-equal to itself), and `objRef` for reference identity
  of objects.  IEEE arithmetic is never needed by the claims, only strict
  equality and truthiness, so numbers are carried as integers plus `nan`.
* The reactive store (`class ReactiveState`) becomes an explicit record
  `ReactiveState` with its state, per-key subscriber registry and multi-key
  expression registry.  Callbacks are opaque and identified by natural
  numbers; "firing" a callback is modelled by returning the ordered trace
  of fired callback identifiers from `ReactiveState.set`.
* The scope proxy (`createLocalProxy`), the dependency registrar
  (`registerDependencies` / `getTokensFromExpression`), the event-argument
  evaluator (`getArgumentValue`), the conditional reconciler
  (`parseIfStatements`' `update` closure) and the keyed list reconciler
  (`parseEachBlocks`' `update` closure) are each translated below next to
  the theorems that need them.
-/

/-- JavaScript values as far as the engine's claims need them.  `objRef`
carries reference identity; `nan` is the number that is not strict-equal to
itself; `num`/`str`/`bool` are the ordinary primitives. -/
inductive JSValue where
  | undef
  | null
  | nan
  | bool (b : Bool)
  | num (n : Int)
  | str (s : String)
  | objRef (id : Nat)
deriving DecidableEq

/-- JavaScript strict equality `===`: `NaN` is equal to nothing (itself
included); every other value is equal exactly to itself (`objRef` compares
by reference identity). -/
def jsStrictEq : JSValue → JSValue → Bool
  | JSValue.nan, _ => false
  | _, JSValue.nan => false
  | a, b => decide (a = b)

/-- JavaScript truthiness: `undefined`, `null`, `NaN`, `false`, `0` and the
empty string are falsy, everything else (all object references included) is
truthy. -/
def truthy : JSValue → Bool
  | JSValue.undef => false
  | JSValue.null => false
  | JSValue.nan => false
  | JSValue.bool b => b
  | JSValue.num n => decide (n ≠ 0)
  | JSValue.str s => decide (s ≠ "")
  | JSValue.objRef _ => true

/-- Association-list lookup, the model of property access on a plain
JavaScript object whose own keys are the listed ones. -/
def alookup (l : List (String × JSValue)) (k : String) : Option JSValue :=
  (l.find? (fun p => p.1 == k)).map (fun p => p.2)

/-- Property assignment on a plain object: overwrite the key if present,
append it otherwise. -/
def aset : List (String × JSValue) → String → JSValue → List (String × JSValue)
  | [], k, v => [(k, v)]
  | p :: rest, k, v => if p.1 == k then (k, v) :: rest else p :: aset rest k v

/-- The reactive store of `class ReactiveState`: the backing `state` object,
the `subscribers` map (key to insertion-ordered callback list) and the
`expressions` array of multi-key subscriptions. -/
structure ReactiveState where
  state : List (String × JSValue)
  subscribers : List (String × List Nat)
  expressions : List (List String × Nat)
deriving DecidableEq

/-- The callbacks `#notify(key)` runs, in insertion order. -/
def ReactiveState.notifyFired (rs : ReactiveState) (k : String) : List Nat :=
  match rs.subscribers.find? (fun p => p.1 == k) with
  | some p => p.2
  | none => []

/-- The callbacks `#checkExpression(changedKey)` runs: every expression
subscription whose variable list contains the changed key, in registration
order. -/
def ReactiveState.exprFired (rs : ReactiveState) (k : String) : List Nat :=
  (rs.expressions.filter (fun e => e.1.contains k)).map (fun e => e.2)

/-- The state proxy's `set` trap: when the stored value is not strict-equal
(`!==`) to the incoming one, store it and synchronously run the single-key
subscribers then the matching expression subscribers; otherwise do nothing.
Returns the updated store and the ordered trace of fired callback ids.
An absent key reads as `undefined`, exactly as `target[key]` does. -/
def ReactiveState.set (rs : ReactiveState) (k : String) (v : JSValue) :
    ReactiveState × List Nat :=
  let cur := (alookup rs.state k).getD JSValue.undef
  if jsStrictEq cur v then (rs, [])
  else
    let rs' : ReactiveState := { rs with state := aset rs.state k v }
    (rs', rs'.notifyFired k ++ rs'.exprFired k)

/-- `subscribe(key, callback)`: create the key's callback set on first use
and add the callback unless it is already registered for that key. -/
def ReactiveState.subscribe (rs : ReactiveState) (k : String) (cb : Nat) :
    ReactiveState :=
  match rs.subscribers.find? (fun p => p.1 == k) with
  | none => { rs with subscribers := rs.subscribers ++ [(k, [cb])] }
  | some p =>
    if p.2.contains cb then rs
    else
      { rs with
        subscribers :=
          rs.subscribers.map (fun q => if q.1 == k then (q.1, q.2 ++ [cb]) else q) }

/-- `addExpression(variables, callback)`: push the pair onto the
`expressions` array. -/
def ReactiveState.addExpression (rs : ReactiveState) (vars : List String)
    (cb : Nat) : ReactiveState :=
  { rs with expressions := rs.expressions ++ [(vars, cb)] }

/-- The `unsubscribe` closure returned by `addExpression`: it computes
`findIndex((obj) => obj !== dependencies)` and then calls
`this.expressions.slice(index, 1)`.  `Array.prototype.slice` allocates a
copy and its result is discarded, so the registry is left untouched and the
store is returned unchanged.  (The JS `!==` is reference inequality on the
closed-over record; since the result is discarded either way, structural
inequality is an adequate stand-in.) -/
def expressionUnsubscribe (rs : ReactiveState) (deps : List String × Nat) :
    ReactiveState :=
  let _i := rs.expressions.findIdx (fun obj => obj != deps)
  rs

/-- Total number of single-key subscriptions held by a store. -/
def subCount (rs : ReactiveState) : Nat :=
  (rs.subscribers.map (fun p => p.2.length)).sum

-- Helper lemmas about the association list.

theorem alookup_aset_self (l : List (String × JSValue)) (k : String)
    (v : JSValue) : alookup (aset l k v) k = some v := by
  induction l with
  | nil => simp [aset, alookup]
  | cons p rest ih =>
    by_cases h : p.1 = k
    · simp [aset, alookup, h]
    · simp only [aset, beq_iff_eq, h, if_false]
      unfold alookup
      rw [List.find?_cons_of_neg]
      · exact ih
      · simp [h]

theorem jsStrictEq_refl_of_ne_nan (v : JSValue) (h : v ≠ JSValue.nan) :
    jsStrictEq v v = true := by
  cases v <;> simp [jsStrictEq] at h ⊢

-- A concrete store used by the C2 counterexample: one key `k` holding `0`,
-- one single-key subscriber (callback id 0) on `k`.
def c2store : ReactiveState :=
  { state := [("k", JSValue.num 0)]
    subscribers := [("k", [0])]
    expressions := [] }

/-- C2 counterexample: the claim quantifies over every value `v`, but for
`v = NaN` the second `set(k, v)` is not inert: `NaN !== NaN`, so the guard
`target[key] !== value` passes again and the single-key subscriber fires a
second time (fired trace `[0]` on both calls, instead of only the first). -/
theorem c2_set_nan_not_inert :
    ((c2store.set "k" JSValue.nan).1.set "k" JSValue.nan).2 = [0] ∧
      (c2store.set "k" JSValue.nan).2 = [0] := by
  constructor <;> rfl

/-- C2 (amended): for every value `v` that is strict-equal to itself — that
is, every value other than `NaN` — a second `set(k, v)` after a first one is
inert: the store (hence the stored value) is unchanged and no single-key or
multi-key subscriber fires. -/
theorem c2_set_idempotent (rs : ReactiveState) (k : String) (v : JSValue)
    (h : jsStrictEq v v = true) :
    ((rs.set k v).1).set k v = ((rs.set k v).1, []) := by
  unfold ReactiveState.set
  by_cases h1 : jsStrictEq ((alookup rs.state k).getD JSValue.undef) v = true
  · simp [h1]
  · simp only [h1, Bool.false_eq_true, if_false, if_neg]
    simp [alookup_aset_self, h]

/-- C2 witness: the amended theorem applied at the concrete store `c2store`,
key `"k"` and value `3`. -/
theorem c2_set_idempotent_witness :
    jsStrictEq (JSValue.num 3) (JSValue.num 3) = true ∧
      ((c2store.set "k" (JSValue.num 3)).1).set "k" (JSValue.num 3) =
        ((c2store.set "k" (JSValue.num 3)).1, []) :=
  ⟨by decide, c2_set_idempotent c2store "k" (JSValue.num 3) (by decide)⟩

/-! ## Scope (`createLocalProxy`) -/

/-- The target object `createLocalProxy` builds:
`{ ...localState, __globalState: { ...globalState }, __globalManager }`.
Later literal keys win, so any local binding named like the two reserved
keys is overwritten; the two reserved entries hold object references (their
snapshot content is irrelevant to the proxy traps, which consult the live
`globalState` closure instead). -/
def mkLocalTarget (localState : List (String × JSValue)) :
    List (String × JSValue) :=
  (localState.filter (fun p => p.1 ≠ "__globalState" ∧ p.1 ≠ "__globalManager"))
    ++ [("__globalState", JSValue.objRef 1000001),
        ("__globalManager", JSValue.objRef 1000002)]

/-- The local proxy's `get` trap: `key in target` falls back to the live
global state object when the key is not an own key of the target, and
yields `undefined` when it is in neither. -/
def scopeGet (target : List (String × JSValue)) (g : ReactiveState)
    (k : String) : JSValue :=
  match alookup target k with
  | some v => v
  | none =>
    match alookup g.state k with
    | some v => v
    | none => JSValue.undef

/-- `typeof x == "object"`: true for object references and for `null`. -/
def isObjectType : JSValue → Bool
  | JSValue.objRef _ => true
  | JSValue.null => true
  | _ => false

/-- The fragment of JavaScript loose equality `==` the local proxy's no-op
check can reach: the left operand is already known to be object-typed
(an object reference or `null`).  Two references are loosely equal exactly
when they are the same reference; `null` is loosely equal to `null` and to
`undefined`; an object reference is never loosely equal to the primitives
the engine stores (its `toPrimitive` is the default `"[object Object]"`). -/
def jsLooseEqObj : JSValue → JSValue → Bool
  | JSValue.objRef i, JSValue.objRef j => decide (i = j)
  | JSValue.null, JSValue.null => true
  | JSValue.null, JSValue.undef => true
  | _, _ => false

/-- Result of one write through the local proxy's `set` trap: the updated
target object, the (possibly updated) global store, the trace of global
callbacks the write fired, and the trap's boolean return value. -/
structure ScopeWriteResult where
  target : List (String × JSValue)
  global : ReactiveState
  fired : List Nat
  ok : Bool
deriving DecidableEq

/-- The local proxy's `set` trap: first the in-place no-op check
(`typeof target[key] == "object" && target[key] == value`), then write the
own key if present, else forward to the live global state object (whose
reactive `set` trap fires its subscribers), else return `false`. -/
def scopeSet (target : List (String × JSValue)) (g : ReactiveState)
    (k : String) (v : JSValue) : ScopeWriteResult :=
  let cur := (alookup target k).getD JSValue.undef
  if isObjectType cur && jsLooseEqObj cur v then
    { target := target, global := g, fired := [], ok := true }
  else if (alookup target k).isSome then
    { target := aset target k v, global := g, fired := [], ok := true }
  else if (alookup g.state k).isSome then
    let r := g.set k v
    { target := target, global := r.1, fired := r.2, ok := true }
  else
    { target := target, global := g, fired := [], ok := false }

theorem alookup_aset_ne (l : List (String × JSValue)) (k k2 : String)
    (v : JSValue) (h : k2 ≠ k) : alookup (aset l k v) k2 = alookup l k2 := by
  induction l with
  | nil =>
    unfold aset alookup
    rw [List.find?_cons_of_neg _
      (by simp only [beq_iff_eq]; exact fun hh => h hh.symm)]
  | cons p rest ih =>
    by_cases hp : p.1 = k
    · unfold aset
      simp only [hp, beq_self_eq_true, if_true]
      unfold alookup
      rw [List.find?_cons_of_neg _
          (by simp only [beq_iff_eq]; exact fun hh => h hh.symm),
        List.find?_cons_of_neg _
          (by simp only [beq_iff_eq, hp]; exact fun hh => h hh.symm)]
    · simp only [aset, beq_iff_eq, hp, if_false]
      by_cases hk2 : p.1 = k2
      · unfold alookup
        rw [List.find?_cons_of_pos _ (by simp [hk2]),
          List.find?_cons_of_pos _ (by simp [hk2])]
      · unfold alookup
        rw [List.find?_cons_of_neg _ (by simp [hk2]),
          List.find?_cons_of_neg _ (by simp [hk2])]
        exact ih

/-- C3: scope reads resolve local-first then global then `undefined`; a
write to a key the target owns touches only the target (no global state
change, no global subscriber fires, other local keys unchanged, trap
returns `true`, and the key afterwards holds the written value unless the
object-typed loose-equality no-op check suppressed the write); a write to a
key absent locally but present globally leaves the target alone and is
exactly a reactive `set` on the global store (so its subscribers fire per
that store's semantics), returning `true`; a write to a key present in
neither changes nothing, fires nothing and returns `false` without any
error being raised. -/
theorem c3_scope_read_write_routing (target : List (String × JSValue))
    (g : ReactiveState) (k : String) (v : JSValue) :
    ((alookup target k).isSome →
      scopeGet target g k = (alookup target k).getD JSValue.undef) ∧
    (alookup target k = none → (alookup g.state k).isSome →
      scopeGet target g k = (alookup g.state k).getD JSValue.undef) ∧
    (alookup target k = none → alookup g.state k = none →
      scopeGet target g k = JSValue.undef) ∧
    ((alookup target k).isSome →
      (scopeSet target g k v).global = g ∧
      (scopeSet target g k v).fired = [] ∧
      (scopeSet target g k v).ok = true ∧
      (∀ k2, k2 ≠ k →
        alookup (scopeSet target g k v).target k2 = alookup target k2) ∧
      (alookup (scopeSet target g k v).target k = some v ∨
        (isObjectType ((alookup target k).getD JSValue.undef) = true ∧
          jsLooseEqObj ((alookup target k).getD JSValue.undef) v = true ∧
          (scopeSet target g k v).target = target))) ∧
    (alookup target k = none → (alookup g.state k).isSome →
      (scopeSet target g k v).target = target ∧
      (scopeSet target g k v).global = (g.set k v).1 ∧
      (scopeSet target g k v).fired = (g.set k v).2 ∧
      (scopeSet target g k v).ok = true) ∧
    (alookup target k = none → alookup g.state k = none →
      scopeSet target g k v =
        { target := target, global := g, fired := [], ok := false }) := by
  refine ⟨?_, ?_, ?_, ?_, ?_, ?_⟩
  · intro h
    match hl : alookup target k with
    | some w => simp [scopeGet, hl]
    | none => rw [hl] at h; simp at h
  · intro h1 h2
    match hg : alookup g.state k with
    | some w => simp [scopeGet, h1, hg]
    | none => rw [hg] at h2; simp at h2
  · intro h1 h2
    simp [scopeGet, h1, h2]
  · intro h
    unfold scopeSet
    by_cases hnoop :
        (isObjectType ((alookup target k).getD JSValue.undef) &&
          jsLooseEqObj ((alookup target k).getD JSValue.undef) v) = true
    · rcases Bool.and_eq_true_iff.mp hnoop with ⟨ho, he⟩
      refine ⟨by simp [hnoop], by simp [hnoop], by simp [hnoop],
        fun k2 _ => by simp [hnoop], Or.inr ⟨ho, he, by simp [hnoop]⟩⟩
    · refine ⟨by simp [hnoop, h], by simp [hnoop, h], by simp [hnoop, h],
        fun k2 hk2 => ?_, Or.inl ?_⟩
      · simp only [hnoop, Bool.false_eq_true, if_false, h, if_true]
        exact alookup_aset_ne target k k2 v hk2
      · simp only [hnoop, Bool.false_eq_true, if_false, h, if_true]
        exact alookup_aset_self target k v
  · intro h1 h2
    refine ⟨?_, ?_, ?_, ?_⟩ <;> simp [scopeSet, h1, h2, isObjectType]
  · intro h1 h2
    simp [scopeSet, h1, h2, isObjectType]

-- A concrete scope for the C3 witness: local binding `x = 1` over a global
-- store holding `y = 2` with one subscriber (callback id 5) on `y`.
def c3global : ReactiveState :=
  { state := [("y", JSValue.num 2)]
    subscribers := [("y", [5])]
    expressions := [] }

def c3target : List (String × JSValue) := mkLocalTarget [("x", JSValue.num 1)]

/-- C3 witness: the routing theorem applied at the concrete scope: writing
the locally-present `x` fires nothing globally and returns `true`; writing
the locally-absent, globally-present `y` forwards to the global store and
fires its subscriber; writing `z`, present in neither, is rejected with
`false` and no mutation. -/
theorem c3_scope_read_write_routing_witness :
    ((scopeSet c3target c3global "x" (JSValue.num 9)).global = c3global ∧
      (scopeSet c3target c3global "x" (JSValue.num 9)).fired = [] ∧
      (scopeSet c3target c3global "x" (JSValue.num 9)).ok = true) ∧
    ((scopeSet c3target c3global "y" (JSValue.num 7)).fired =
        (c3global.set "y" (JSValue.num 7)).2 ∧
      (scopeSet c3target c3global "y" (JSValue.num 7)).ok = true) ∧
    scopeSet c3target c3global "z" (JSValue.num 7) =
      { target := c3target, global := c3global, fired := [], ok := false } := by
  refine ⟨⟨?_, ?_, ?_⟩, ⟨?_, ?_⟩, ?_⟩
  · exact ((c3_scope_read_write_routing c3target c3global "x"
      (JSValue.num 9)).2.2.2.1 (by decide)).1
  · exact ((c3_scope_read_write_routing c3target c3global "x"
      (JSValue.num 9)).2.2.2.1 (by decide)).2.1
  · exact ((c3_scope_read_write_routing c3target c3global "x"
      (JSValue.num 9)).2.2.2.1 (by decide)).2.2.1
  · exact ((c3_scope_read_write_routing c3target c3global "y"
      (JSValue.num 7)).2.2.2.2.1 (by decide) (by decide)).2.2.1
  · exact ((c3_scope_read_write_routing c3target c3global "y"
      (JSValue.num 7)).2.2.2.2.1 (by decide) (by decide)).2.2.2
  · exact (c3_scope_read_write_routing c3target c3global "z"
      (JSValue.num 7)).2.2.2.2.2 (by decide) (by decide)

/-! ## The broken expression unsubscribe (C5) -/

def c5store : ReactiveState :=
  { state := [("a", JSValue.num 0)], subscribers := [], expressions := [] }

/-- C5: after `addExpression(["a"], cb)` a change to `a` fires `cb` — but
the returned `unsubscribe` computes a `findIndex` over the wrong predicate
and then calls `slice` (which copies instead of mutating), so it leaves the
registry untouched and `cb` still fires on the next change to `a`,
contradicting the claim's second half. -/
theorem c5_unsubscribe_is_noop :
    (expressionUnsubscribe (c5store.addExpression ["a"] 7) (["a"], 7) =
      c5store.addExpression ["a"] 7) ∧
    ((expressionUnsubscribe (c5store.addExpression ["a"] 7)
        (["a"], 7)).set "a" (JSValue.num 1)).2.contains 7 = true := by
  constructor <;> rfl

/-! ## Conditional reconciler (`parseIfStatements`' `update` closure) -/

/-- Detach every listed node from a child list (the effect of a sequence of
`node.remove()` / fragment `appendChild` moves; a DOM child list holds each
node at most once, so a filter is exact). -/
def removeAll (l rem : List Nat) : List Nat :=
  l.filter (fun n => !(rem.contains n))

/-- `parentNode.insertBefore(fragment, blockStart.nextSibling)`: splice the
fragment's nodes in right after the first occurrence of the marker; when
the marker is absent (a detached marker has a `null` `nextSibling`) the
fragment is appended at the end, exactly as `insertBefore(frag, null)`. -/
def insertAfter : List Nat → Nat → List Nat → List Nat
  | [], _, frag => frag
  | x :: xs, mark, frag =>
    if x = mark then x :: (frag ++ xs) else x :: insertAfter xs mark frag

theorem subset_insertAfter (l : List Nat) (mark : Nat) (frag : List Nat) :
    ∀ n ∈ frag, n ∈ insertAfter l mark frag := by
  induction l with
  | nil => intro n hn; simpa [insertAfter] using hn
  | cons x xs ih =>
    intro n hn
    unfold insertAfter
    split
    · exact List.mem_cons_of_mem _ (List.mem_append_left _ hn)
    · exact List.mem_cons_of_mem _ (ih n hn)

theorem mem_insertAfter {l : List Nat} {mark : Nat} {frag : List Nat} {n : Nat}
    (h : n ∈ insertAfter l mark frag) : n ∈ l ∨ n ∈ frag := by
  induction l with
  | nil => exact Or.inr (by simpa [insertAfter] using h)
  | cons x xs ih =>
    unfold insertAfter at h
    split at h
    · rcases List.mem_cons.mp h with h1 | h2
      · exact Or.inl (by simp [h1])
      · rcases List.mem_append.mp h2 with hf | hxs
        · exact Or.inr hf
        · exact Or.inl (List.mem_cons_of_mem _ hxs)
    · rcases List.mem_cons.mp h with h1 | h2
      · exact Or.inl (by simp [h1])
      · rcases ih h2 with h3 | h4
        · exact Or.inl (List.mem_cons_of_mem _ h3)
        · exact Or.inr h4

theorem filter_insertAfter (p : Nat → Bool) (l : List Nat) (mark : Nat)
    (frag : List Nat) (hfrag : ∀ x ∈ frag, p x = false) :
    (insertAfter l mark frag).filter p = l.filter p := by
  have hf : frag.filter p = [] := by
    induction frag with
    | nil => rfl
    | cons y ys ihy =>
      simp only [List.filter_cons, hfrag y (by simp), Bool.false_eq_true,
        if_false]
      exact ihy fun x hx => hfrag x (List.mem_cons_of_mem _ hx)
  induction l with
  | nil => simpa [insertAfter]
  | cons x xs ih =>
    unfold insertAfter
    split
    · simp [List.filter_cons, List.filter_append, hf]
    · simp [List.filter_cons, ih]

theorem filter_filter_of_imp (p q : Nat → Bool) (l : List Nat)
    (h : ∀ n, p n = true → q n = true) :
    (l.filter q).filter p = l.filter p := by
  induction l with
  | nil => rfl
  | cons x xs ih =>
    by_cases hq : q x = true
    · simp [List.filter_cons, hq, ih]
    · have hp : p x = false := by
        cases hpx : p x
        · rfl
        · exact absurd (h x hpx) hq
      simp [List.filter_cons, hq, hp, ih]

/-- One extracted conditional block: the two branch node sequences and the
start-marker text node. -/
structure CondBlock where
  ifNodes : List Nat
  elseNodes : List Nat
  blockStart : Nat
deriving DecidableEq

/-- The mutable state the `update` closure owns: the parent's child list it
patches and the `lastEval` memo (initially `undefined`, as `let lastEval`
without an initializer reads). -/
structure CondState where
  children : List Nat
  lastEval : JSValue
deriving DecidableEq

/-- One run of the conditional `update` closure at a given guard value: an
early return when the value is strict-equal to the memo; otherwise, on a
truthy guard, move the if-branch nodes into the reusable fragment, remove
the else-branch nodes and splice the fragment back right after the start
marker (symmetric on a falsy guard), then store the memo. -/
def condUpdate (blk : CondBlock) (cs : CondState) (evaluation : JSValue) :
    CondState :=
  if jsStrictEq cs.lastEval evaluation then cs
  else if truthy evaluation then
    { children :=
        insertAfter (removeAll (removeAll cs.children blk.ifNodes)
          blk.elseNodes) blk.blockStart blk.ifNodes
      lastEval := evaluation }
  else
    { children :=
        insertAfter (removeAll (removeAll cs.children blk.elseNodes)
          blk.ifNodes) blk.blockStart blk.elseNodes
      lastEval := evaluation }

/-- Iterated updates: the sequence of guard values the registered callback
sees over the block's lifetime, starting with the bind-time evaluation. -/
def condRun (blk : CondBlock) (cs : CondState) (gs : List JSValue) :
    CondState :=
  gs.foldl (condUpdate blk) cs

def branchAttached (ns ch : List Nat) : Prop := ∀ n ∈ ns, n ∈ ch

def branchDetached (ns ch : List Nat) : Prop := ∀ n ∈ ns, n ∉ ch

/-- Exactly one of the two branch node sequences is in the tree (an empty
branch counts as vacuously attached). -/
def exactlyOneBranch (blk : CondBlock) (ch : List Nat) : Prop :=
  (branchAttached blk.ifNodes ch ∧ branchDetached blk.elseNodes ch) ∨
    (branchAttached blk.elseNodes ch ∧ branchDetached blk.ifNodes ch)

instance (ns ch : List Nat) : Decidable (branchAttached ns ch) := by
  unfold branchAttached; infer_instance

instance (ns ch : List Nat) : Decidable (branchDetached ns ch) := by
  unfold branchDetached; infer_instance

instance (blk : CondBlock) (ch : List Nat) :
    Decidable (exactlyOneBranch blk ch) := by
  unfold exactlyOneBranch; infer_instance

theorem condUpdate_truthy_attach (blk : CondBlock) (cs : CondState)
    (v : JSValue) (hdisj : ∀ n ∈ blk.ifNodes, n ∉ blk.elseNodes)
    (hmemo : jsStrictEq cs.lastEval v = false) (ht : truthy v = true) :
    branchAttached blk.ifNodes (condUpdate blk cs v).children ∧
      branchDetached blk.elseNodes (condUpdate blk cs v).children := by
  unfold condUpdate
  simp only [hmemo, Bool.false_eq_true, if_false, ht, if_true]
  constructor
  · exact fun n hn => subset_insertAfter _ _ _ n hn
  · intro e he hmem
    rcases mem_insertAfter hmem with h1 | h2
    · have h2' := (List.mem_filter.mp h1).2
      simp [he] at h2'
    · exact hdisj e h2 he

theorem condUpdate_falsy_attach (blk : CondBlock) (cs : CondState)
    (v : JSValue) (hdisj : ∀ n ∈ blk.ifNodes, n ∉ blk.elseNodes)
    (hmemo : jsStrictEq cs.lastEval v = false) (ht : truthy v = false) :
    branchAttached blk.elseNodes (condUpdate blk cs v).children ∧
      branchDetached blk.ifNodes (condUpdate blk cs v).children := by
  unfold condUpdate
  simp only [hmemo, Bool.false_eq_true, if_false, ht]
  constructor
  · exact fun n hn => subset_insertAfter _ _ _ n hn
  · intro i hi hmem
    rcases mem_insertAfter hmem with h1 | h2
    · have h2' := (List.mem_filter.mp h1).2
      simp [hi] at h2'
    · exact hdisj i hi h2

theorem condUpdate_establishes (blk : CondBlock) (cs : CondState)
    (v : JSValue) (hdisj : ∀ n ∈ blk.ifNodes, n ∉ blk.elseNodes)
    (hmemo : jsStrictEq cs.lastEval v = false) :
    exactlyOneBranch blk (condUpdate blk cs v).children := by
  by_cases ht : truthy v = true
  · exact Or.inl (condUpdate_truthy_attach blk cs v hdisj hmemo ht)
  · exact Or.inr (condUpdate_falsy_attach blk cs v hdisj hmemo
      (by simpa using ht))

theorem condUpdate_preserves (blk : CondBlock) (cs : CondState) (v : JSValue)
    (hdisj : ∀ n ∈ blk.ifNodes, n ∉ blk.elseNodes)
    (hinv : exactlyOneBranch blk cs.children) :
    exactlyOneBranch blk (condUpdate blk cs v).children := by
  by_cases h : jsStrictEq cs.lastEval v = true
  · have : condUpdate blk cs v = cs := by simp [condUpdate, h]
    rw [this]; exact hinv
  · exact condUpdate_establishes blk cs v hdisj (by simpa using h)

theorem condRun_preserves (blk : CondBlock)
    (hdisj : ∀ n ∈ blk.ifNodes, n ∉ blk.elseNodes) :
    ∀ (gs : List JSValue) (cs : CondState),
      exactlyOneBranch blk cs.children →
      exactlyOneBranch blk (condRun blk cs gs).children := by
  intro gs
  induction gs with
  | nil => exact fun cs h => h
  | cons g rest ih =>
    intro cs h
    exact ih (condUpdate blk cs g) (condUpdate_preserves blk cs g hdisj h)

/-- C6 (amended): for a block whose two branches share no node, as long as
the bind-time guard evaluation is not `undefined` (the uninitialized value
of the `lastEval` memo), every subsequent state has exactly one branch's
node sequence attached.  (When the first evaluation is `undefined`, the
memo check `lastEval === evaluation` short-circuits the very first update
and both branches stay attached — see the counterexample.) -/
theorem c6_exactly_one_branch (blk : CondBlock) (ch0 : List Nat)
    (g0 : JSValue) (gs : List JSValue)
    (hdisj : ∀ n ∈ blk.ifNodes, n ∉ blk.elseNodes)
    (hg0 : g0 ≠ JSValue.undef) :
    exactlyOneBranch blk
      (condRun blk { children := ch0, lastEval := JSValue.undef }
        (g0 :: gs)).children := by
  have h0 : jsStrictEq JSValue.undef g0 = false := by
    cases g0 <;> simp_all [jsStrictEq]
  have hstart := condUpdate_establishes blk
    { children := ch0, lastEval := JSValue.undef } g0 hdisj h0
  exact condRun_preserves blk hdisj gs _ hstart

/-- C6 witness: the amended theorem at a concrete block (if-branch node 1,
else-branch node 2 behind start marker 0) with a truthy bind-time guard. -/
theorem c6_exactly_one_branch_witness :
    ((1 : Nat) ≠ 2) ∧ (JSValue.bool true ≠ JSValue.undef) ∧
      exactlyOneBranch
        { ifNodes := [1], elseNodes := [2], blockStart := 0 }
        (condRun { ifNodes := [1], elseNodes := [2], blockStart := 0 }
          { children := [0, 1, 2], lastEval := JSValue.undef }
          [JSValue.bool true]).children :=
  ⟨by decide, by decide,
    c6_exactly_one_branch
      { ifNodes := [1], elseNodes := [2], blockStart := 0 }
      [0, 1, 2] (JSValue.bool true) [] (by decide) (by decide)⟩

def c6blk : CondBlock := { ifNodes := [1], elseNodes := [2], blockStart := 0 }

/-- C6 counterexample: at bind time the memo `lastEval` is `undefined`; if
the guard also evaluates to `undefined` (e.g. `{start:if show}` over a
store holding `show: undefined`), the very first update returns before any
tree surgery, so both nonempty branches remain attached, refuting both
"exactly one branch is attached from bind time onward" and "the initial
attached branch is determined by evaluating the guard once at bind time". -/
theorem c6_undefined_guard_leaves_both_attached :
    (condUpdate c6blk { children := [0, 1, 2], lastEval := JSValue.undef }
        JSValue.undef).children = [0, 1, 2] ∧
      ¬ exactlyOneBranch c6blk
        (condUpdate c6blk { children := [0, 1, 2], lastEval := JSValue.undef }
          JSValue.undef).children := by
  exact ⟨rfl, by decide⟩

theorem truthy_eq_of_jsStrictEq {a b : JSValue}
    (h : jsStrictEq a b = true) : truthy a = truthy b := by
  cases a <;> cases b <;> simp_all [jsStrictEq, truthy]

/-- C7: (1) re-running the conditional update with a guard value strictly
equal to the memoized previous one performs no tree mutation at all (the
state, child list included, is returned unchanged); (2) when the memoized
value is falsy and the new value truthy, the update leaves every node
outside the block's two branches exactly in place (the child list filtered
to non-branch nodes is unchanged, order included) while attaching precisely
the if-branch nodes and detaching the else-branch nodes. -/
theorem c7_memo_idempotent_and_swap_touches_only_block (blk : CondBlock)
    (cs : CondState) (v : JSValue)
    (hdisj : ∀ n ∈ blk.ifNodes, n ∉ blk.elseNodes) :
    (jsStrictEq cs.lastEval v = true → condUpdate blk cs v = cs) ∧
    (truthy cs.lastEval = false → truthy v = true →
      ((condUpdate blk cs v).children.filter
          (fun n => !(blk.ifNodes.contains n || blk.elseNodes.contains n)) =
        cs.children.filter
          (fun n => !(blk.ifNodes.contains n || blk.elseNodes.contains n)) ∧
       branchAttached blk.ifNodes (condUpdate blk cs v).children ∧
       branchDetached blk.elseNodes (condUpdate blk cs v).children)) := by
  constructor
  · intro h
    simp [condUpdate, h]
  · intro hlast ht
    have hmemo : jsStrictEq cs.lastEval v = false := by
      cases hsq : jsStrictEq cs.lastEval v
      · rfl
      · rw [truthy_eq_of_jsStrictEq hsq, ht] at hlast
        exact absurd hlast (by simp)
    refine ⟨?_, condUpdate_truthy_attach blk cs v hdisj hmemo ht⟩
    unfold condUpdate
    simp only [hmemo, Bool.false_eq_true, if_false, ht, if_true]
    rw [filter_insertAfter _ _ _ _ (fun x hx => by simp [hx])]
    unfold removeAll
    rw [filter_filter_of_imp _ _ _ (fun n hn => ?_),
      filter_filter_of_imp _ _ _ (fun n hn => ?_)]
    · simp only [Bool.not_eq_true', Bool.or_eq_false_iff] at hn
      simpa using hn.1
    · simp only [Bool.not_eq_true', Bool.or_eq_false_iff] at hn
      simpa using hn.2

/-- C7 witness: the theorem at a concrete block and state: memo hit `true`
against `true` returns the state untouched; toggling `false` to `true`
swaps node 2 out and node 1 in while sibling nodes 0 and 3 stay in place. -/
theorem c7_memo_idempotent_and_swap_witness :
    ((∀ n ∈ [1], n ∉ [2]) ∧
      jsStrictEq (JSValue.bool true) (JSValue.bool true) = true ∧
      truthy (JSValue.bool false) = false ∧ truthy (JSValue.bool true) = true) ∧
    condUpdate { ifNodes := [1], elseNodes := [2], blockStart := 0 }
        { children := [0, 2, 3], lastEval := JSValue.bool true }
        (JSValue.bool true) =
      { children := [0, 2, 3], lastEval := JSValue.bool true } ∧
    ((condUpdate { ifNodes := [1], elseNodes := [2], blockStart := 0 }
          { children := [0, 2, 3], lastEval := JSValue.bool false }
          (JSValue.bool true)).children.filter
        (fun n => !(List.contains [1] n || List.contains [2] n)) =
      List.filter
        (fun n => !(List.contains [1] n || List.contains [2] n)) [0, 2, 3] ∧
      branchAttached [1]
        (condUpdate { ifNodes := [1], elseNodes := [2], blockStart := 0 }
          { children := [0, 2, 3], lastEval := JSValue.bool false }
          (JSValue.bool true)).children ∧
      branchDetached [2]
        (condUpdate { ifNodes := [1], elseNodes := [2], blockStart := 0 }
          { children := [0, 2, 3], lastEval := JSValue.bool false }
          (JSValue.bool true)).children) :=
  ⟨⟨by decide, by decide, by decide, by decide⟩,
    (c7_memo_idempotent_and_swap_touches_only_block
      { ifNodes := [1], elseNodes := [2], blockStart := 0 }
      { children := [0, 2, 3], lastEval := JSValue.bool true }
      (JSValue.bool true) (by decide)).1 (by decide),
    (c7_memo_idempotent_and_swap_touches_only_block
      { ifNodes := [1], elseNodes := [2], blockStart := 0 }
      { children := [0, 2, 3], lastEval := JSValue.bool false }
      (JSValue.bool true) (by decide)).2 (by decide) (by decide)⟩

/-! ## Keyed list reconciler (`parseEachBlocks`' `update` closure) -/

/-- A stable list key (`_dom_master_key`): for objects, the identifier
minted once by `uniid()` and attached as a non-enumerable property (minted
identifiers are modelled as distinct naturals from a fresh supply); for
primitives, the item value itself. -/
inductive DKey where
  | minted (n : Nat)
  | primv (v : JSValue)
deriving DecidableEq

/-- A loop source item after key minting: an object carrying its minted
`_dom_master_key`, or a primitive. -/
inductive Item where
  | obj (key : Nat)
  | prim (v : JSValue)
deriving DecidableEq

/-- `typeof item === "object" ? item._dom_master_key : item`. -/
def Item.dkey : Item → DKey
  | Item.obj k => DKey.minted k
  | Item.prim v => DKey.primv v

/-- One entry of `state.domNodes`: the rendered root node (by identity),
the stable key and the saved positional index.  (The per-item local scope
and payload also stored there are not needed by the claims.) -/
structure EachRecord where
  node : Nat
  key : DKey
  index : Nat
deriving DecidableEq

/-- `Map.prototype.get`. -/
def mapGet (m : List (DKey × EachRecord)) (k : DKey) : Option EachRecord :=
  (m.find? (fun p => p.1 == k)).map (fun p => p.2)

/-- `Map.prototype.delete` (a `Map` holds each key at most once, so a
filter is exact on the maps `buildMap` constructs). -/
def mapDelete (m : List (DKey × EachRecord)) (k : DKey) :
    List (DKey × EachRecord) :=
  m.filter (fun p => p.1 != k)

/-- `Map.prototype.set` semantics used by the `new Map(pairs)` constructor:
an existing key is updated in place, a new key is appended. -/
def mapInsert (m : List (DKey × EachRecord)) (k : DKey) (r : EachRecord) :
    List (DKey × EachRecord) :=
  if m.any (fun p => p.1 == k) then
    m.map (fun p => if p.1 == k then (k, r) else p)
  else m ++ [(k, r)]

/-- `new Map(state.domNodes.map(...))`: the old-key-to-record map built
from the previous render's records. -/
def buildMap (prev : List EachRecord) : List (DKey × EachRecord) :=
  prev.foldl (fun m r => mapInsert m r.key r) []

/-- The reconciliation loop `newItems.forEach((item, index) => ...)`:
`newLen` is `newItems.length` and `prevLen` is `state.domNodes.length`,
both fixed for the whole loop.  A key found in the old map reuses that
record's node (with the new index) and consumes the map entry; an unmatched
key mints a fresh node only when `newLen !== prevLen`, and is silently
skipped otherwise.  (`oldNodeMap.size && oldNodeMap.has(key)` is equivalent
to a successful `get`, since an empty map has no keys.)  Returns the new
record list, the unconsumed map entries and the next fresh node id. -/
def reconcileGo (newLen prevLen : Nat) :
    List Item → Nat → List (DKey × EachRecord) → Nat → List EachRecord →
      List EachRecord × List (DKey × EachRecord) × Nat
  | [], _, m, fresh, acc => (acc, m, fresh)
  | it :: rest, idx, m, fresh, acc =>
    match mapGet m it.dkey with
    | some r =>
      reconcileGo newLen prevLen rest (idx + 1) (mapDelete m it.dkey) fresh
        (acc ++ [{ node := r.node, key := it.dkey, index := idx }])
    | none =>
      if newLen ≠ prevLen then
        reconcileGo newLen prevLen rest (idx + 1) m (fresh + 1)
          (acc ++ [{ node := fresh, key := it.dkey, index := idx }])
      else reconcileGo newLen prevLen rest (idx + 1) m fresh acc

/-- Result of one full run of the loop `update` closure. -/
structure EachResult where
  records : List EachRecord
  children : List Nat
  fresh : Nat
deriving DecidableEq

/-- One full run of the loop `update` closure over a child list: reconcile,
then `parentNode.removeChild` every unconsumed old node, then move every
new-record node into the off-tree fragment (detaching the reused ones) and
insert the fragment right after the block's start marker (skipped when the
fragment is empty, as the code guards on `childNodes.length`). -/
def eachUpdate (prev : List EachRecord) (items : List Item)
    (children : List Nat) (blockStart : Nat) (fresh : Nat) : EachResult :=
  let res := reconcileGo items.length prev.length items 0 (buildMap prev)
    fresh []
  let removed := res.2.1.map (fun p => p.2.node)
  let c1 := children.filter (fun n => !(removed.contains n))
  let newNodes := res.1.map EachRecord.node
  let c2 := c1.filter (fun n => !(newNodes.contains n))
  { records := res.1
    children := if newNodes.isEmpty then c2
      else insertAfter c2 blockStart newNodes
    fresh := res.2.2 }

theorem reconcileGo_acc (newLen prevLen : Nat) (items : List Item) :
    ∀ (idx : Nat) (m : List (DKey × EachRecord)) (fresh : Nat)
      (acc : List EachRecord),
      reconcileGo newLen prevLen items idx m fresh acc =
        (acc ++ (reconcileGo newLen prevLen items idx m fresh []).1,
          (reconcileGo newLen prevLen items idx m fresh []).2) := by
  induction items with
  | nil => intro idx m fresh acc; simp [reconcileGo]
  | cons it rest ih =>
    intro idx m fresh acc
    cases hm : mapGet m it.dkey with
    | some r =>
      simp only [reconcileGo, hm, List.nil_append]
      rw [ih (idx + 1) (mapDelete m it.dkey) fresh
          [({ node := r.node, key := it.dkey, index := idx } : EachRecord)],
        ih (idx + 1) (mapDelete m it.dkey) fresh
          (acc ++ [({ node := r.node, key := it.dkey, index := idx } : EachRecord)])]
      simp
    | none =>
      by_cases hlen : newLen ≠ prevLen
      · simp only [reconcileGo, hm, if_pos hlen, List.nil_append]
        rw [ih (idx + 1) m (fresh + 1)
            [({ node := fresh, key := it.dkey, index := idx } : EachRecord)],
          ih (idx + 1) m (fresh + 1)
            (acc ++ [({ node := fresh, key := it.dkey, index := idx } : EachRecord)])]
        simp
      · simp only [reconcileGo, hm, if_neg hlen]
        exact ih (idx + 1) m fresh acc

theorem mapGet_mem {m : List (DKey × EachRecord)} {k : DKey} {r : EachRecord}
    (h : mapGet m k = some r) : ∃ q ∈ m, q.1 = k ∧ q.2 = r := by
  unfold mapGet at h
  cases hf : m.find? (fun p => p.1 == k) with
  | none => rw [hf] at h; exact absurd h (by simp)
  | some q =>
    rw [hf] at h
    simp only [Option.map] at h
    refine ⟨q, List.mem_of_find?_eq_some hf, ?_, by simpa using h⟩
    have := List.find?_some hf
    simpa using this

theorem mapGet_isSome_of_mem_keys {m : List (DKey × EachRecord)} {k : DKey}
    (h : k ∈ m.map Prod.fst) : ∃ r, mapGet m k = some r := by
  obtain ⟨q, hq, hk⟩ := List.mem_map.mp h
  have hs : (m.find? (fun p => p.1 == k)).isSome := by
    rw [List.find?_isSome]
    exact ⟨q, hq, by simp [hk]⟩
  obtain ⟨p, hp⟩ := Option.isSome_iff_exists.mp hs
  exact ⟨p.2, by simp [mapGet, hp]⟩

theorem mapDelete_subset {m : List (DKey × EachRecord)} {k : DKey}
    {q : DKey × EachRecord} (h : q ∈ mapDelete m k) : q ∈ m :=
  List.mem_of_mem_filter h

theorem mapDelete_keys_subset {m : List (DKey × EachRecord)} {k k2 : DKey}
    (h : k2 ∈ (mapDelete m k).map Prod.fst) : k2 ∈ m.map Prod.fst := by
  obtain ⟨q, hq, hk⟩ := List.mem_map.mp h
  exact List.mem_map.mpr ⟨q, mapDelete_subset hq, hk⟩

theorem mapDelete_keys_of_nodup {m : List (DKey × EachRecord)} {k : DKey}
    (h : (m.map Prod.fst).Nodup) :
    (mapDelete m k).map Prod.fst = (m.map Prod.fst).erase k := by
  induction m with
  | nil => rfl
  | cons q rest ih =>
    rw [List.map_cons] at h
    obtain ⟨hq, hrest⟩ := List.nodup_cons.mp h
    by_cases hk : q.1 = k
    · subst hk
      unfold mapDelete
      rw [List.filter_cons_of_neg (by simp), List.map_cons,
        List.erase_cons, if_pos (by simp)]
      exact congrArg (List.map Prod.fst) (List.filter_eq_self.mpr
        (fun p hp => by
          simp only [bne_iff_ne, ne_eq]
          exact fun hc => hq (List.mem_map.mpr ⟨p, hp, hc⟩)))
    · unfold mapDelete
      rw [List.filter_cons_of_pos (by simp [hk]), List.map_cons,
        List.map_cons, List.erase_cons, if_neg (by simp [hk])]
      rw [← ih hrest]
      rfl

theorem mapInsert_mem {m : List (DKey × EachRecord)} {k : DKey}
    {r : EachRecord} {q : DKey × EachRecord} (h : q ∈ mapInsert m k r) :
    q ∈ m ∨ q = (k, r) := by
  unfold mapInsert at h
  split at h
  · obtain ⟨p, hp, hpq⟩ := List.mem_map.mp h
    by_cases hpk : p.1 = k
    · right; rw [← hpq]; simp [hpk]
    · left; rw [← hpq]; simp only [beq_iff_eq, hpk, if_false]; exact hp
  · rcases List.mem_append.mp h with h1 | h2
    · exact Or.inl h1
    · exact Or.inr (by simpa using h2)

theorem buildMapGo_mem (rest : List EachRecord) :
    ∀ (acc : List (DKey × EachRecord)) (P : DKey × EachRecord → Prop),
      (∀ q ∈ acc, P q) → (∀ r ∈ rest, P (r.key, r)) →
      ∀ q ∈ rest.foldl (fun m r => mapInsert m r.key r) acc, P q := by
  induction rest with
  | nil => intro acc P hacc _ q hq; exact hacc q hq
  | cons r rs ih =>
    intro acc P hacc hrest q hq
    refine ih (mapInsert acc r.key r) P ?_
      (fun r2 h2 => hrest r2 (List.mem_cons_of_mem _ h2)) q hq
    intro p hp
    rcases mapInsert_mem hp with h1 | h2
    · exact hacc p h1
    · rw [h2]; exact hrest r (by simp)

theorem buildMap_mem (prev : List EachRecord) :
    ∀ q ∈ buildMap prev, q.2 ∈ prev ∧ q.1 = q.2.key := by
  intro q hq
  exact buildMapGo_mem prev [] (fun q => q.2 ∈ prev ∧ q.1 = q.2.key)
    (by simp) (fun r _ => ⟨by assumption, rfl⟩) q hq

theorem buildMapGo_of_nodup (prev : List EachRecord) :
    ∀ (acc : List (DKey × EachRecord)),
      (∀ r ∈ prev, ∀ q ∈ acc, q.1 ≠ r.key) →
      (prev.map EachRecord.key).Nodup →
      prev.foldl (fun m r => mapInsert m r.key r) acc =
        acc ++ prev.map (fun r => (r.key, r)) := by
  induction prev with
  | nil => intro acc _ _; simp
  | cons r rest ih =>
    intro acc hdis hnodup
    rw [List.map_cons] at hnodup
    obtain ⟨hr, hnd2⟩ := List.nodup_cons.mp hnodup
    simp only [List.foldl_cons]
    have hins : mapInsert acc r.key r = acc ++ [(r.key, r)] := by
      unfold mapInsert
      rw [if_neg]
      simp only [List.any_eq_true, not_exists]
      intro p hcon
      exact absurd (by simpa using hcon.2) (hdis r (by simp) p hcon.1)
    have hdis2 : ∀ r2 ∈ rest, ∀ q ∈ acc ++ [(r.key, r)], q.1 ≠ r2.key := by
      intro r2 hr2 q hq
      rcases List.mem_append.mp hq with h1 | h2
      · exact hdis r2 (List.mem_cons_of_mem _ hr2) q h1
      · have hqe : q = (r.key, r) := by simpa using h2
        rw [hqe]
        intro hcon
        apply hr
        have hck : r.key = r2.key := hcon
        rw [hck]
        exact List.mem_map.mpr ⟨r2, hr2, rfl⟩
    rw [hins, ih (acc ++ [(r.key, r)]) hdis2 hnd2]
    simp

theorem buildMap_of_nodup (prev : List EachRecord)
    (h : (prev.map EachRecord.key).Nodup) :
    buildMap prev = prev.map (fun r => (r.key, r)) := by
  unfold buildMap
  rw [buildMapGo_of_nodup prev [] (by simp) h]
  simp

theorem reconcileGo_perm_reuse (newLen prevLen : Nat) (items : List Item) :
    ∀ (idx fresh : Nat) (m : List (DKey × EachRecord)),
      (items.map Item.dkey).Perm (m.map Prod.fst) →
      (items.map Item.dkey).Nodup →
      ((reconcileGo newLen prevLen items idx m fresh []).1.map EachRecord.key
          = items.map Item.dkey) ∧
      (∀ r ∈ (reconcileGo newLen prevLen items idx m fresh []).1,
        ∃ q ∈ m, q.1 = r.key ∧ q.2.node = r.node) ∧
      (reconcileGo newLen prevLen items idx m fresh []).2.1 = [] ∧
      (reconcileGo newLen prevLen items idx m fresh []).2.2 = fresh := by
  induction items with
  | nil =>
    intro idx fresh m hperm _
    have h0 : m.map Prod.fst = [] := hperm.symm.eq_nil
    have hm : m = [] := by
      cases m with
      | nil => rfl
      | cons q rest => simp at h0
    subst hm
    simp [reconcileGo]
  | cons it rest ih =>
    intro idx fresh m hperm hnodup
    rw [List.map_cons] at hperm hnodup
    obtain ⟨hhd, hnd2⟩ := List.nodup_cons.mp hnodup
    have hin : it.dkey ∈ m.map Prod.fst := hperm.subset (by simp)
    obtain ⟨r, hr⟩ := mapGet_isSome_of_mem_keys hin
    have hmnd : (m.map Prod.fst).Nodup :=
      hperm.nodup (List.nodup_cons.mpr ⟨hhd, hnd2⟩)
    have hperm2 :
        (rest.map Item.dkey).Perm ((mapDelete m it.dkey).map Prod.fst) := by
      rw [mapDelete_keys_of_nodup hmnd]
      exact (List.cons_perm_iff_perm_erase.mp hperm).2
    obtain ⟨ihk, ihmem, ihleft, ihfresh⟩ :=
      ih (idx + 1) fresh (mapDelete m it.dkey) hperm2 hnd2
    simp only [reconcileGo, hr, List.nil_append]
    rw [reconcileGo_acc newLen prevLen rest]
    refine ⟨?_, ?_, ?_, ?_⟩
    · simp [ihk]
    · intro r' hr'
      rcases List.mem_cons.mp (by simpa using hr') with he | hrest2
      · obtain ⟨q, hq, hqk, hqr⟩ := mapGet_mem hr
        exact ⟨q, hq, by simp [he, hqk], by simp [he, hqr]⟩
      · obtain ⟨q, hq, hqk, hqn⟩ := ihmem r' hrest2
        exact ⟨q, mapDelete_subset hq, hqk, hqn⟩
    · simpa using ihleft
    · simpa using ihfresh

theorem insertAfter_decomp {l : List Nat} {mark : Nat} (frag : List Nat)
    (h : mark ∈ l) :
    ∃ pre post, insertAfter l mark frag = pre ++ mark :: (frag ++ post) := by
  induction l with
  | nil => simp at h
  | cons x xs ih =>
    by_cases hx : x = mark
    · subst hx
      exact ⟨[], xs, by simp [insertAfter]⟩
    · have hm : mark ∈ xs := by
        rcases List.mem_cons.mp h with h1 | h2
        · exact absurd h1.symm hx
        · exact h2
      obtain ⟨pre, post, hp⟩ := ih hm
      exact ⟨x :: pre, post, by simp [insertAfter, hx, hp]⟩

theorem buildMap_keys_of_nodup (prev : List EachRecord)
    (h : (prev.map EachRecord.key).Nodup) :
    (buildMap prev).map Prod.fst = prev.map EachRecord.key := by
  rw [buildMap_of_nodup prev h, List.map_map]
  rfl

/-- C8: when a keyed list re-renders over the same stable keys in a new
order (a permutation, keys pairwise distinct), every new record reuses the
previously rendered node of its key (no node is created: the fresh-node
supply is untouched), the record keys follow the new array's order, and the
child list after the update carries exactly the new records' nodes, in new
array order, immediately after the block's start marker. -/
theorem c8_keyed_reorder_reuses_nodes (prev : List EachRecord)
    (items : List Item) (children : List Nat) (blockStart fresh : Nat)
    (hperm : (items.map Item.dkey).Perm (prev.map EachRecord.key))
    (hnodup : (items.map Item.dkey).Nodup)
    (hbs : blockStart ∈ children)
    (hbsn : blockStart ∉ prev.map EachRecord.node)
    (hne : items ≠ []) :
    (eachUpdate prev items children blockStart fresh).records.map
        EachRecord.key = items.map Item.dkey ∧
    (∀ r ∈ (eachUpdate prev items children blockStart fresh).records,
      ∃ p ∈ prev, p.key = r.key ∧ p.node = r.node) ∧
    (eachUpdate prev items children blockStart fresh).fresh = fresh ∧
    (∃ pre post,
      (eachUpdate prev items children blockStart fresh).children =
        pre ++ blockStart ::
          ((eachUpdate prev items children blockStart fresh).records.map
            EachRecord.node ++ post)) := by
  have hnodupP : (prev.map EachRecord.key).Nodup := hperm.nodup hnodup
  have hpermB :
      (items.map Item.dkey).Perm ((buildMap prev).map Prod.fst) := by
    rw [buildMap_keys_of_nodup prev hnodupP]
    exact hperm
  obtain ⟨hk, hmem, hleft, hfresh⟩ := reconcileGo_perm_reuse items.length
    prev.length items 0 fresh (buildMap prev) hpermB hnodup
  have hmemP : ∀ r ∈ (reconcileGo items.length prev.length items 0
      (buildMap prev) fresh []).1,
      ∃ p ∈ prev, p.key = r.key ∧ p.node = r.node := by
    intro r hrr
    obtain ⟨q, hq, hqk, hqn⟩ := hmem r hrr
    obtain ⟨hq2, hq1⟩ := buildMap_mem prev q hq
    exact ⟨q.2, hq2, by rw [← hq1, hqk], hqn⟩
  have hrecs : (eachUpdate prev items children blockStart fresh).records =
      (reconcileGo items.length prev.length items 0 (buildMap prev)
        fresh []).1 := rfl
  have hfr : (eachUpdate prev items children blockStart fresh).fresh =
      (reconcileGo items.length prev.length items 0 (buildMap prev)
        fresh []).2.2 := rfl
  refine ⟨by rw [hrecs]; exact hk, by rw [hrecs]; exact hmemP,
    by rw [hfr]; exact hfresh, ?_⟩
  -- the child-list shape
  have hnodesne : ((reconcileGo items.length prev.length items 0
      (buildMap prev) fresh []).1.map EachRecord.node) ≠ [] := by
    intro hcon
    have : (reconcileGo items.length prev.length items 0 (buildMap prev)
        fresh []).1 = [] := by
      cases hml : (reconcileGo items.length prev.length items 0
          (buildMap prev) fresh []).1 with
      | nil => rfl
      | cons a b => rw [hml] at hcon; simp at hcon
    rw [this] at hk
    exact hne (by
      cases items with
      | nil => rfl
      | cons a b => simp at hk)
  have hsub : ∀ n ∈ (reconcileGo items.length prev.length items 0
      (buildMap prev) fresh []).1.map EachRecord.node,
      n ∈ prev.map EachRecord.node := by
    intro n hn
    obtain ⟨r, hrr, hrn⟩ := List.mem_map.mp hn
    obtain ⟨p, hp, _, hpn⟩ := hmemP r hrr
    exact List.mem_map.mpr ⟨p, hp, by rw [hpn, hrn]⟩
  have hchildren :
      (eachUpdate prev items children blockStart fresh).children =
        insertAfter
          ((children.filter (fun n =>
            !(((reconcileGo items.length prev.length items 0 (buildMap prev)
              fresh []).2.1.map (fun p => p.2.node)).contains n))).filter
            (fun n =>
              !(((reconcileGo items.length prev.length items 0
                (buildMap prev) fresh []).1.map EachRecord.node).contains n)))
          blockStart
          ((reconcileGo items.length prev.length items 0 (buildMap prev)
            fresh []).1.map EachRecord.node) := by
    show (if ((reconcileGo items.length prev.length items 0 (buildMap prev)
        fresh []).1.map EachRecord.node).isEmpty then _ else _) = _
    rw [if_neg (by
      intro hcon
      exact hnodesne (List.isEmpty_iff.mp hcon))]
  rw [hchildren, hrecs]
  have hc1 : (children.filter (fun n =>
      !(((reconcileGo items.length prev.length items 0 (buildMap prev)
        fresh []).2.1.map (fun p => p.2.node)).contains n))) = children := by
    rw [hleft]
    simp
  rw [hc1]
  apply insertAfter_decomp
  refine List.mem_filter.mpr ⟨hbs, ?_⟩
  simp only [Bool.not_eq_true']
  cases hcon : ((reconcileGo items.length prev.length items 0 (buildMap prev)
      fresh []).1.map EachRecord.node).contains blockStart
  · rfl
  · exact absurd (hsub blockStart (by simpa using hcon)) hbsn

def c8prev : List EachRecord :=
  [{ node := 10, key := DKey.minted 1, index := 0 },
    { node := 11, key := DKey.minted 2, index := 1 }]

/-- C8 witness: the spec's own example — `[ {id:1}, {id:2} ]` rendered as
nodes 10 and 11 behind start marker 0, then re-rendered as
`[ {id:2}, {id:1} ]` — via the theorem at those concrete inputs. -/
theorem c8_keyed_reorder_reuses_nodes_witness :
    (([Item.obj 2, Item.obj 1].map Item.dkey).Perm
        (c8prev.map EachRecord.key) ∧
      ([Item.obj 2, Item.obj 1].map Item.dkey).Nodup ∧
      (0 : Nat) ∈ [0, 10, 11] ∧
      (0 : Nat) ∉ c8prev.map EachRecord.node ∧
      ([Item.obj 2, Item.obj 1] : List Item) ≠ []) ∧
    ((eachUpdate c8prev [Item.obj 2, Item.obj 1] [0, 10, 11] 0 100).records.map
        EachRecord.key = [Item.obj 2, Item.obj 1].map Item.dkey ∧
      (∀ r ∈ (eachUpdate c8prev [Item.obj 2, Item.obj 1]
          [0, 10, 11] 0 100).records,
        ∃ p ∈ c8prev, p.key = r.key ∧ p.node = r.node) ∧
      (eachUpdate c8prev [Item.obj 2, Item.obj 1] [0, 10, 11] 0 100).fresh =
        100 ∧
      (∃ pre post,
        (eachUpdate c8prev [Item.obj 2, Item.obj 1]
            [0, 10, 11] 0 100).children =
          pre ++ 0 ::
            ((eachUpdate c8prev [Item.obj 2, Item.obj 1]
              [0, 10, 11] 0 100).records.map EachRecord.node ++ post))) :=
  ⟨⟨by decide, by decide, by decide, by decide, by decide⟩,
    c8_keyed_reorder_reuses_nodes c8prev [Item.obj 2, Item.obj 1]
      [0, 10, 11] 0 100 (by decide) (by decide) (by decide) (by decide)
      (by decide)⟩

theorem reconcileGo_no_create_of_eqlen (L : Nat) (items : List Item) :
    ∀ (idx fresh : Nat) (m : List (DKey × EachRecord)),
      (∀ r ∈ (reconcileGo L L items idx m fresh []).1,
        ∃ q ∈ m, q.1 = r.key ∧ q.2.node = r.node) ∧
      (reconcileGo L L items idx m fresh []).2.2 = fresh := by
  induction items with
  | nil =>
    intro idx fresh m
    refine ⟨?_, rfl⟩
    intro r hrr
    simp [reconcileGo] at hrr
  | cons it rest ih =>
    intro idx fresh m
    cases hm : mapGet m it.dkey with
    | some r =>
      simp only [reconcileGo, hm, List.nil_append]
      rw [reconcileGo_acc L L rest]
      obtain ⟨ihmem, ihfresh⟩ := ih (idx + 1) fresh (mapDelete m it.dkey)
      constructor
      · intro r' hr'
        rcases List.mem_cons.mp (by simpa using hr') with he | hrest2
        · obtain ⟨q, hq, hqk, hqr⟩ := mapGet_mem hm
          exact ⟨q, hq, by simp [he, hqk], by simp [he, hqr]⟩
        · obtain ⟨q, hq, hqk, hqn⟩ := ihmem r' hrest2
          exact ⟨q, mapDelete_subset hq, hqk, hqn⟩
      · simpa using ihfresh
    | none =>
      simp only [reconcileGo, hm, if_neg (by simp : ¬L ≠ L)]
      exact ih (idx + 1) fresh m

theorem reconcileGo_creates_unmatched (newLen prevLen : Nat)
    (hne : newLen ≠ prevLen) (items : List Item) :
    ∀ (idx fresh : Nat) (m : List (DKey × EachRecord)) (it : Item),
      it ∈ items → it.dkey ∉ m.map Prod.fst →
      ∃ r ∈ (reconcileGo newLen prevLen items idx m fresh []).1,
        r.key = it.dkey ∧ fresh ≤ r.node := by
  induction items with
  | nil => intro idx fresh m it hit _; simp at hit
  | cons hd rest ih =>
    intro idx fresh m it hit hnk
    rcases List.mem_cons.mp hit with heq | hmem
    · subst heq
      have hget : mapGet m it.dkey = none := by
        cases hg : mapGet m it.dkey with
        | none => rfl
        | some r =>
          obtain ⟨q, hq, hqk, _⟩ := mapGet_mem hg
          exact absurd (List.mem_map.mpr ⟨q, hq, hqk⟩) hnk
      simp only [reconcileGo, hget, if_pos hne, List.nil_append]
      rw [reconcileGo_acc newLen prevLen rest]
      exact ⟨{ node := fresh, key := it.dkey, index := idx }, by simp, rfl,
        Nat.le_refl fresh⟩
    · cases hg : mapGet m hd.dkey with
      | some r =>
        simp only [reconcileGo, hg, List.nil_append]
        rw [reconcileGo_acc newLen prevLen rest]
        have hnk2 : it.dkey ∉ (mapDelete m hd.dkey).map Prod.fst :=
          fun hcon => hnk (mapDelete_keys_subset hcon)
        obtain ⟨r', hr', hk', hf'⟩ := ih (idx + 1) fresh (mapDelete m hd.dkey)
          it hmem hnk2
        exact ⟨r', List.mem_append_right _ hr', hk', hf'⟩
      | none =>
        simp only [reconcileGo, hg, if_pos hne, List.nil_append]
        rw [reconcileGo_acc newLen prevLen rest]
        obtain ⟨r', hr', hk', hf'⟩ := ih (idx + 1) (fresh + 1) m it hmem hnk
        exact ⟨r', List.mem_append_right _ hr', hk',
          Nat.le_trans (Nat.le_succ fresh) hf'⟩

/-- C9: the length heuristic of the create branch.  When the new array's
length equals the previous record count, no node is ever created: every
resulting record carries a node of some previous record, the fresh-node
supply is untouched, and an item whose stable key is absent from the
previous records yields no record at all.  When the lengths differ, every
such unmatched item gets a freshly created node (at or above the supply
mark, hence — when all previous nodes lie below the mark — a node that is
not any previously rendered one). -/
theorem c9_length_heuristic_gates_node_creation (prev : List EachRecord)
    (items : List Item) (children : List Nat) (blockStart fresh : Nat) :
    (items.length = prev.length →
      (∀ r ∈ (eachUpdate prev items children blockStart fresh).records,
        ∃ p ∈ prev, p.node = r.node) ∧
      (eachUpdate prev items children blockStart fresh).fresh = fresh ∧
      (∀ it ∈ items, it.dkey ∉ prev.map EachRecord.key →
        it.dkey ∉ (eachUpdate prev items children blockStart
          fresh).records.map EachRecord.key)) ∧
    (items.length ≠ prev.length →
      ∀ it ∈ items, it.dkey ∉ prev.map EachRecord.key →
        ∃ r ∈ (eachUpdate prev items children blockStart fresh).records,
          r.key = it.dkey ∧ fresh ≤ r.node ∧
          ((∀ p ∈ prev, p.node < fresh) →
            r.node ∉ prev.map EachRecord.node)) := by
  have hrecs : (eachUpdate prev items children blockStart fresh).records =
      (reconcileGo items.length prev.length items 0 (buildMap prev)
        fresh []).1 := rfl
  have hfr : (eachUpdate prev items children blockStart fresh).fresh =
      (reconcileGo items.length prev.length items 0 (buildMap prev)
        fresh []).2.2 := rfl
  have hbmk : ∀ k ∈ (buildMap prev).map Prod.fst,
      k ∈ prev.map EachRecord.key := by
    intro k hk
    obtain ⟨q, hq, hqk⟩ := List.mem_map.mp hk
    obtain ⟨hq2, hq1⟩ := buildMap_mem prev q hq
    exact List.mem_map.mpr ⟨q.2, hq2, by rw [← hq1, hqk]⟩
  constructor
  · intro hlen
    rw [hlen] at hrecs hfr
    obtain ⟨hmem, hfresh⟩ := reconcileGo_no_create_of_eqlen prev.length
      items 0 fresh (buildMap prev)
    refine ⟨?_, by rw [hfr]; exact hfresh, ?_⟩
    · intro r hrr
      rw [hrecs] at hrr
      obtain ⟨q, hq, _, hqn⟩ := hmem r hrr
      exact ⟨q.2, (buildMap_mem prev q hq).1, hqn⟩
    · intro it _ hnk hcon
      rw [hrecs] at hcon
      obtain ⟨r, hrr, hrk⟩ := List.mem_map.mp hcon
      obtain ⟨q, hq, hqk, _⟩ := hmem r hrr
      exact hnk (hbmk it.dkey (List.mem_map.mpr ⟨q, hq, by rw [hqk, hrk]⟩))
  · intro hlen it hit hnk
    have hnkB : it.dkey ∉ (buildMap prev).map Prod.fst :=
      fun hcon => hnk (hbmk it.dkey hcon)
    obtain ⟨r, hrr, hk, hf⟩ := reconcileGo_creates_unmatched items.length
      prev.length hlen items 0 fresh (buildMap prev) it hit hnkB
    refine ⟨r, by rw [hrecs]; exact hrr, hk, hf, ?_⟩
    intro hlt hcon
    obtain ⟨p, hp, hpn⟩ := List.mem_map.mp hcon
    have hrf : r.node < fresh := hpn ▸ hlt p hp
    exact absurd hf (Nat.not_le_of_lt hrf)

/-- C9 witness: the theorem at concrete inputs: with previous render
`[node 10 for key 1]` and same-length new array `[key 5]`, the unmatched
key 5 yields no record and no fresh node is consumed; with the longer new
array `[key 1, key 2]`, the unmatched key 2 gets a freshly created node. -/
theorem c9_length_heuristic_witness :
    (([Item.obj 5] : List Item).length =
        ([{ node := 10, key := DKey.minted 1, index := 0 }] :
          List EachRecord).length ∧
      Item.dkey (Item.obj 5) ∉
        ([{ node := 10, key := DKey.minted 1, index := 0 }] :
          List EachRecord).map EachRecord.key ∧
      Item.dkey (Item.obj 5) ∉
        (eachUpdate [{ node := 10, key := DKey.minted 1, index := 0 }]
          [Item.obj 5] [0, 10] 0 100).records.map EachRecord.key) ∧
    (([Item.obj 1, Item.obj 2] : List Item).length ≠
        ([{ node := 10, key := DKey.minted 1, index := 0 }] :
          List EachRecord).length ∧
      ∃ r ∈ (eachUpdate [{ node := 10, key := DKey.minted 1, index := 0 }]
          [Item.obj 1, Item.obj 2] [0, 10] 0 100).records,
        r.key = Item.dkey (Item.obj 2) ∧ 100 ≤ r.node) :=
  ⟨⟨by decide, by decide,
      ((c9_length_heuristic_gates_node_creation
        [{ node := 10, key := DKey.minted 1, index := 0 }]
        [Item.obj 5] [0, 10] 0 100).1 (by decide)).2.2 (Item.obj 5)
        (by decide) (by decide)⟩,
    ⟨by decide, by
      obtain ⟨r, hrr, hk, hf, _⟩ :=
        (c9_length_heuristic_gates_node_creation
          [{ node := 10, key := DKey.minted 1, index := 0 }]
          [Item.obj 1, Item.obj 2] [0, 10] 0 100).2 (by decide)
          (Item.obj 2) (by decide) (by decide)
      exact ⟨r, hrr, hk, hf⟩⟩⟩

/-! ## Dependency registrar (`getTokensFromExpression` / `registerDependencies`) -/

/-- A character of the identifier-token class `[a-zA-Z_$.]` the tokenizer
splits on the complement of (note: digits are separators). -/
def tokenChar (c : Char) : Bool :=
  decide (('a' ≤ c ∧ c ≤ 'z') ∨ ('A' ≤ c ∧ c ≤ 'Z') ∨ c = '_' ∨ c = '$' ∨
    c = '.')

/-- Scan for the closing quote of `(['"])(?:(?!\1|\\).|\\.)*\1`: a backslash
escapes the next character; a trailing backslash, or running out of input,
means the opening quote has no partner. Returns the input after the closing
quote. -/
def findClose (q : Char) : List Char → Option (List Char)
  | [] => none
  | [c] => if c = '\\' then none else if c = q then some [] else none
  | c :: c2 :: rest =>
    if c = '\\' then findClose q rest
    else if c = q then some (c2 :: rest)
    else findClose q (c2 :: rest)

/-- `replace(/(['"])(?:(?!\1|\\).|\\.)*\1/g, "")`: drop every matched
quoted span, keep an unpaired quote, scanning left to right.  The fuel is
the input length (each step consumes at least one character). -/
def stripQuoted : Nat → List Char → List Char
  | 0, cs => cs
  | _ + 1, [] => []
  | fuel + 1, c :: rest =>
    if c = '\'' ∨ c = '"' then
      match findClose c rest with
      | some rest2 => stripQuoted fuel rest2
      | none => c :: stripQuoted fuel rest
    else c :: stripQuoted fuel rest

/-- `isStringRegx.test`: does the text contain a full quoted span? -/
def hasStringLit : List Char → Bool
  | [] => false
  | c :: rest =>
    if (c = '\'' ∨ c = '"') ∧ (findClose c rest).isSome then true
    else hasStringLit rest

/-- `.split(/[^a-zA-Z_$\.]+/).filter(Boolean)`: the maximal runs of token
characters, in order.  `cur` holds the current run reversed. -/
def splitTokensGo : List Char → List Char → List String
  | [], cur => if cur.isEmpty then [] else [String.mk cur.reverse]
  | c :: rest, cur =>
    if tokenChar c then splitTokensGo rest (c :: cur)
    else if cur.isEmpty then splitTokensGo rest []
    else String.mk cur.reverse :: splitTokensGo rest []

/-- `[...new Set(tokens)]`: deduplicate keeping first-occurrence order. -/
def dedupStr (l : List String) : List String :=
  l.foldl (fun acc t => if acc.contains t then acc else acc ++ [t]) []

/-- Collapse a dotted (or, dead-code in practice, bracketed) access to its
root: `token.split(".")[0]` — the prefix before the first dot — when the
token contains a dot, else the prefix before the first `[` when it contains
an opening bracket. -/
def rootify (t : String) : String :=
  if t.toList.contains '.' then
    String.mk (t.toList.takeWhile (fun c => decide (c ≠ '.')))
  else if t.toList.contains '[' then
    String.mk (t.toList.takeWhile (fun c => decide (c ≠ '[')))
  else t

/-- The whitespace characters `.trim()` strips at either end. -/
def wsChar (c : Char) : Bool :=
  decide (c = ' ' ∨ c = '\t' ∨ c = '\n' ∨ c = '\r')

def trimChars (cs : List Char) : List Char :=
  ((cs.dropWhile wsChar).reverse.dropWhile wsChar).reverse

/-- What the token filter and the registrar can observe of the scope:
`varKeys` answers `token in variables` on the raw proxy target; `gsKeys`
is the key set of `variables.__globalState` when that snapshot exists
(dynamically created nodes), `none` otherwise; `smGlobalStateKeys` stands
for `stateManager.globalState?.state` — a `ReactiveState` instance defines
no `globalState` property (the constructor's second argument is ignored),
so in every reachable configuration it is `none`; the field is kept so the
filter reads like the source. -/
structure RegEnv where
  varKeys : List String
  gsKeys : Option (List String)
  smGlobalStateKeys : Option (List String)
deriving DecidableEq

/-- `variables?.__globalState && token in variables.__globalState`. -/
def RegEnv.gsHas (env : RegEnv) (t : String) : Bool :=
  match env.gsKeys with
  | some g => g.contains t
  | none => false

/-- `getTokensFromExpression`: strip quoted spans, split into identifier
tokens, deduplicate, then collapse dotted/bracketed accesses to roots, and
keep the tokens known to the scope, the global snapshot or the store. -/
def getTokensFromExpression (expr : String) (env : RegEnv) : List String :=
  let cleaned := stripQuoted expr.toList.length expr.toList
  let tokens := splitTokensGo (trimChars cleaned) []
  let deduped := dedupStr tokens
  let rooted := deduped.map rootify
  rooted.filter (fun t =>
    env.varKeys.contains t || env.gsHas t ||
      (match env.smGlobalStateKeys with
       | some g => g.contains t
       | none => false))

/-- `template.match(braceRegex)` for `\{\s*([^\{\}]+?)\s*\}/g`: every span
`{...}` with at least one non-brace character inside, full match text
including the braces; on a brace that cannot close, rescanning restarts
past the opener.  Fuel is the input length. -/
def braceScanGo : Nat → List Char → List String
  | 0, _ => []
  | _ + 1, [] => []
  | fuel + 1, c :: rest =>
    if c = '{' then
      match rest.dropWhile (fun d => decide (d ≠ '{' ∧ d ≠ '}')) with
      | '}' :: rest2 =>
        if (rest.takeWhile (fun d => decide (d ≠ '{' ∧ d ≠ '}'))).isEmpty then
          braceScanGo fuel rest2
        else
          String.mk ('{' ::
            (rest.takeWhile (fun d => decide (d ≠ '{' ∧ d ≠ '}')) ++ ['}'])) ::
            braceScanGo fuel rest2
      | _ => braceScanGo fuel rest
    else braceScanGo fuel rest

def braceScan (template : String) : List String :=
  braceScanGo template.toList.length template.toList

/-- The pair of stores `registerDependencies` can subscribe against: the
`stateManager` argument and the scope's `__globalManager`. -/
structure RegState where
  sm : ReactiveState
  gm : ReactiveState
deriving DecidableEq

/-- Registration work for one matched `{...}` expression.  Exactly one
retained token: a single-key `subscribe`, on the global manager when the
token is in the `__globalState` snapshot, else on the given store.  Any
other count: one multi-key `addExpression` — on the global manager when
some token is in the snapshot, in which case the following strict-mode
assignment to the undeclared `unsub` raises a ReferenceError (the returned
flag), else on the given store. -/
def registerExpr (env : RegEnv) (cb : Nat) (st : RegState) (expr : String) :
    RegState × Bool :=
  let toks := getTokensFromExpression expr env
  if toks.length = 1 then
    (toks.foldl (fun s t =>
      if env.gsHas t then { s with gm := s.gm.subscribe t cb }
      else { s with sm := s.sm.subscribe t cb }) st, false)
  else if toks.any (fun t => env.gsHas t) then
    ({ st with gm := st.gm.addExpression toks cb }, true)
  else ({ st with sm := st.sm.addExpression toks cb }, false)

/-- `registerDependencies(template, variables, callback, stateManager)`:
match every interpolation and process each in order; a raised
ReferenceError (flag `true`) aborts the remaining expressions, and a
template with no match at all makes `match` return `null`, whose `forEach`
raises immediately. -/
def registerDependencies (template : String) (env : RegEnv) (cb : Nat)
    (st : RegState) : RegState × Bool :=
  let exprs := braceScan template
  if exprs.isEmpty then (st, true)
  else
    exprs.foldl
      (fun acc e => if acc.2 then acc else registerExpr env cb acc.1 e)
      (st, false)

def c4env : RegEnv :=
  { varKeys := ["a"], gsKeys := none, smGlobalStateKeys := none }

def c4st : RegState :=
  { sm := { state := [("a", JSValue.objRef 1)], subscribers := []
            expressions := [] }
    gm := { state := [], subscribers := [], expressions := [] } }

/-- C4 counterexample: the expression `{a.x + a.y}` references exactly one
known state key (the distinct known keys collapse to `["a"]`), yet
registration creates no single-key subscription at all: tokens are
deduplicated before dotted accesses are collapsed to their roots, so the
retained list is `["a", "a"]` of length two and the registrar takes the
multi-key branch, adding one expression subscription instead. -/
theorem c4_dotted_pair_skips_single_key_subscription :
    dedupStr (getTokensFromExpression "{a.x + a.y}" c4env) = ["a"] ∧
    getTokensFromExpression "{a.x + a.y}" c4env = ["a", "a"] ∧
    (registerDependencies "{a.x + a.y}" c4env 3 c4st).1.sm.subscribers =
      [] ∧
    (registerDependencies "{a.x + a.y}" c4env 3 c4st).1.sm.expressions =
      [(["a", "a"], 3)] :=
  ⟨by decide, by decide, by decide, by decide⟩

theorem exprFired_mem_of_contains (st2 : List (String × JSValue))
    (subs : List (String × List Nat)) (exprs : List (List String × Nat))
    (vars : List String) (cb : Nat) (k : String)
    (hk : vars.contains k = true) :
    cb ∈ ReactiveState.exprFired
      { state := st2, subscribers := subs
        expressions := exprs ++ [(vars, cb)] } k := by
  unfold ReactiveState.exprFired
  exact List.mem_map.mpr ⟨(vars, cb),
    List.mem_filter.mpr ⟨List.mem_append_right _ (by simp), hk⟩, rfl⟩

/-- C4 (amended): for a registered template whose brace scan yields exactly
one interpolation expression: when the retained token list (deduplicated
BEFORE dotted accesses collapse to their roots) is exactly one token `t`,
registration performs exactly one single-key `subscribe` — on the global
manager when `t` is a key of the scope's `__globalState` snapshot, else on
the supplied store — and adds no expression subscription; when the retained
list has two or more entries (possibly repeats of one root, as for two
dotted paths sharing a root), registration adds exactly one multi-key
expression subscription — on the global manager (after which the
strict-mode assignment to the undeclared `unsub` raises) when some token is
in the snapshot, else on the supplied store — and in the latter case any
subsequent value-changing `set` of a key in the token list fires the
callback. -/
theorem c4_registration_routing (template : String) (env : RegEnv) (cb : Nat)
    (st : RegState) (e : String) (hscan : braceScan template = [e]) :
    (∀ t, getTokensFromExpression e env = [t] →
      (env.gsHas t = true →
        registerDependencies template env cb st =
          ({ st with gm := st.gm.subscribe t cb }, false)) ∧
      (env.gsHas t = false →
        registerDependencies template env cb st =
          ({ st with sm := st.sm.subscribe t cb }, false))) ∧
    (2 ≤ (getTokensFromExpression e env).length →
      ((getTokensFromExpression e env).any (fun t => env.gsHas t) = false →
        registerDependencies template env cb st =
          ({ st with sm :=
            st.sm.addExpression (getTokensFromExpression e env) cb },
            false)) ∧
      ((getTokensFromExpression e env).any (fun t => env.gsHas t) = true →
        registerDependencies template env cb st =
          ({ st with gm :=
            st.gm.addExpression (getTokensFromExpression e env) cb },
            true))) ∧
    (2 ≤ (getTokensFromExpression e env).length →
      (getTokensFromExpression e env).any (fun t => env.gsHas t) = false →
      ∀ k v, (getTokensFromExpression e env).contains k = true →
        jsStrictEq ((alookup st.sm.state k).getD JSValue.undef) v = false →
        (((registerDependencies template env cb st).1.sm.set k v).2).contains
          cb = true) := by
  have hred : registerDependencies template env cb st =
      registerExpr env cb st e := by
    unfold registerDependencies
    rw [hscan]
    rfl
  refine ⟨?_, ?_, ?_⟩
  · intro t htoks
    constructor <;> intro hgs <;> rw [hred] <;> unfold registerExpr <;>
      rw [htoks] <;> simp [hgs]
  · intro hlen
    have hne1 : ¬(getTokensFromExpression e env).length = 1 := by omega
    constructor <;> intro hany <;> rw [hred] <;> unfold registerExpr <;>
      rw [if_neg hne1] <;> simp [hany]
  · intro hlen hany k v hk hch
    have hne1 : ¬(getTokensFromExpression e env).length = 1 := by omega
    have hre : registerExpr env cb st e =
        ({ st with sm :=
          st.sm.addExpression (getTokensFromExpression e env) cb }, false) := by
      unfold registerExpr
      rw [if_neg hne1, if_neg (by simp [hany])]
    rw [hred, hre]
    unfold ReactiveState.set
    rw [if_neg (by
      simp only [ReactiveState.addExpression]
      simpa using hch)]
    have hmem : cb ∈
        ReactiveState.exprFired
          { state := aset (st.sm.addExpression
              (getTokensFromExpression e env) cb).state k v
            subscribers := (st.sm.addExpression
              (getTokensFromExpression e env) cb).subscribers
            expressions := st.sm.expressions ++
              [((getTokensFromExpression e env), cb)] } k :=
      exprFired_mem_of_contains _ _ _ _ cb k hk
    simp only [ReactiveState.addExpression] at hmem ⊢
    have : cb ∈
        (ReactiveState.notifyFired
            { st.sm with
              state := aset st.sm.state k v
              expressions := st.sm.expressions ++
                [((getTokensFromExpression e env), cb)] } k) ++
          (ReactiveState.exprFired
            { st.sm with
              state := aset st.sm.state k v
              expressions := st.sm.expressions ++
                [((getTokensFromExpression e env), cb)] } k) :=
      List.mem_append_right _ hmem
    simpa using this

def c4env2 : RegEnv :=
  { varKeys := ["a", "b"], gsKeys := none, smGlobalStateKeys := none }

def c4st2 : RegState :=
  { sm := { state := [("a", JSValue.num 1), ("b", JSValue.num 2)]
            subscribers := [], expressions := [] }
    gm := { state := [], subscribers := [], expressions := [] } }

/-- C4 witness: the routing theorem at concrete inputs — `{a}` over a store
knowing `a` and `b` yields one single-key subscription on that store, and
`{a + b}` yields one multi-key expression subscription whose callback fires
on a value-changing set of `b`. -/
theorem c4_registration_routing_witness :
    (braceScan "{a}" = ["{a}"] ∧
      getTokensFromExpression "{a}" c4env2 = ["a"] ∧
      registerDependencies "{a}" c4env2 3 c4st2 =
        ({ c4st2 with sm := c4st2.sm.subscribe "a" 3 }, false)) ∧
    (braceScan "{a + b}" = ["{a + b}"] ∧
      getTokensFromExpression "{a + b}" c4env2 = ["a", "b"] ∧
      registerDependencies "{a + b}" c4env2 3 c4st2 =
        ({ c4st2 with sm := c4st2.sm.addExpression ["a", "b"] 3 }, false) ∧
      (((registerDependencies "{a + b}" c4env2 3 c4st2).1.sm.set "b"
          (JSValue.num 9)).2).contains 3 = true) := by
  refine ⟨⟨by decide, by decide, ?_⟩, by decide, by decide, ?_, ?_⟩
  · exact ((c4_registration_routing "{a}" c4env2 3 c4st2 "{a}"
      (by decide)).1 "a" (by decide)).2 (by decide)
  · have h := ((c4_registration_routing "{a + b}" c4env2 3 c4st2 "{a + b}"
      (by decide)).2.1 (by decide)).1 (by decide)
    rw [show getTokensFromExpression "{a + b}" c4env2 = ["a", "b"] from
      by decide] at h
    exact h
  · exact (c4_registration_routing "{a + b}" c4env2 3 c4st2 "{a + b}"
      (by decide)).2.2 (by decide) (by decide) "b" (JSValue.num 9)
      (by decide) (by decide)

/-! ## Event-argument evaluation (`getArgumentValue`) — C1 -/

def Booleans : List String :=
  ["true", "false", "null", "undefined", "NaN", "NaN", "Infinity",
    "-Infinity"]

/-- The two exception kinds the engine's slips can raise. -/
inductive JSError where
  | typeError (msg : String)
  | refError (msg : String)
deriving DecidableEq

instance exceptDecEq {ε α : Type} [DecidableEq ε] [DecidableEq α] :
    DecidableEq (Except ε α) := fun a b =>
  match a, b with
  | Except.ok x, Except.ok y =>
    if h : x = y then isTrue (by rw [h]) else isFalse (by simp [h])
  | Except.error x, Except.error y =>
    if h : x = y then isTrue (by rw [h]) else isFalse (by simp [h])
  | Except.ok _, Except.error _ => isFalse (by simp)
  | Except.error _, Except.ok _ => isFalse (by simp)

/-- What `getArgumentValue` produces when it does not raise: an unquoted
string literal, a logged-and-`undefined` early return, or delegation to
`evaluateExpression` (which catches everything it can raise itself and at
worst logs and yields `null`/`undefined`, so it never throws). -/
inductive ArgResult where
  | strArg (s : String)
  | loggedUndefined
  | evaluated (expr : String)
deriving DecidableEq

/-- Like `findClose`, but also return the span up to and including the
closing quote. -/
def findCloseSpan (q : Char) : List Char → Option (List Char × List Char)
  | [] => none
  | [c] => if c = '\\' then none else if c = q then some ([q], []) else none
  | c :: c2 :: rest =>
    if c = '\\' then
      match findCloseSpan q rest with
      | some (span, rem) => some (c :: c2 :: span, rem)
      | none => none
    else if c = q then some ([q], c2 :: rest)
    else
      match findCloseSpan q (c2 :: rest) with
      | some (span, rem) => some (c :: span, rem)
      | none => none

/-- `currentArg.match(isStringRegx)[0]`: the first fully quoted span,
quotes included. -/
def firstStringLit : List Char → Option (List Char)
  | [] => none
  | c :: rest =>
    if c = '\'' ∨ c = '"' then
      match findCloseSpan c rest with
      | some (span, _) => some (c :: span)
      | none => firstStringLit rest
    else firstStringLit rest

/-- Objects reachable from the scope, for the dotted-path membership check:
object id to its field names. -/
abbrev FieldEnv := List (Nat × List String)

/-- `getArgumentValue(currentArg, variables)`.  The recognized-literal
branch calls `parsePrimitive`, a function defined nowhere in the module, so
the call raises `ReferenceError: parsePrimitive is not defined`.  The
string branch returns the first quoted span, trimmed, with every quote
character removed.  The dotted branch evaluates
`targetKey in variables[objKey]` (`objKey` the part before the first dot,
`targetKey` the part after the last): when `variables[objKey]` is
`undefined` or any other non-object, the `in` operator raises a TypeError;
a missing field logs and returns `undefined`.  Everything else is handed to
`evaluateExpression`. -/
def getArgumentValue (arg : String) (vars : List (String × JSValue))
    (fields : FieldEnv) : Except JSError ArgResult :=
  if Booleans.contains arg then
    Except.error (JSError.refError "parsePrimitive is not defined")
  else if hasStringLit arg.toList then
    match firstStringLit arg.toList with
    | some span =>
      Except.ok (ArgResult.strArg (String.mk ((trimChars span).filter
        (fun c => decide (c ≠ '\'' ∧ c ≠ '"')))))
    | none => Except.ok (ArgResult.evaluated arg)
  else if arg.toList.contains '.' then
    match alookup vars
        (String.mk (arg.toList.takeWhile (fun c => decide (c ≠ '.')))) with
    | some (JSValue.objRef oid) =>
      match (fields.find? (fun p => p.1 == oid)).map (fun p => p.2) with
      | some fs =>
        if fs.contains (String.mk ((arg.toList.reverse.takeWhile
            (fun c => decide (c ≠ '.'))).reverse)) then
          Except.ok (ArgResult.evaluated arg)
        else Except.ok ArgResult.loggedUndefined
      | none => Except.ok ArgResult.loggedUndefined
    | _ =>
      Except.error (JSError.typeError
        "Cannot use the in operator on a non-object")
  else Except.ok (ArgResult.evaluated arg)

/-- C1: the engine can raise.  Evaluating the event argument `true` (for
example `onclick="f(true)"`) hits the literal branch, whose
`parsePrimitive` is defined nowhere in the module, raising a
ReferenceError; evaluating `user.name` with no `user` in scope applies
`in` to `undefined`, raising a TypeError.  A plain state-derived argument
such as `step` is handed to the (non-throwing) expression evaluator. -/
theorem c1_getArgumentValue_raises :
    getArgumentValue "true" [] [] =
      Except.error (JSError.refError "parsePrimitive is not defined") ∧
    getArgumentValue "user.name" [] [] =
      Except.error (JSError.typeError
        "Cannot use the in operator on a non-object") ∧
    getArgumentValue "step" [("step", JSValue.num 2)] [] =
      Except.ok (ArgResult.evaluated "step") := by
  refine ⟨by decide, by decide, by decide⟩

/-! ## Loop source fetch (`getValueFromExpression` and the array check) — C10 -/

/-- Heap objects the loop source can resolve to: arrays and plain
objects. -/
inductive HObj where
  | arr (elems : List JSValue)
  | plain (fields : List (String × JSValue))
deriving DecidableEq

abbrev Heap := List (Nat × HObj)

def heapFind (heap : Heap) (oid : Nat) : Option HObj :=
  (heap.find? (fun p => p.1 == oid)).map (fun p => p.2)

/-- A character that is not one of the split separators `.`, `[`, `]`. -/
def pathChar (c : Char) : Bool := decide (c ≠ '.' ∧ c ≠ '[' ∧ c ≠ ']')

def splitPathGo : List Char → List Char → List String
  | [], cur => if cur.isEmpty then [] else [String.mk cur.reverse]
  | c :: rest, cur =>
    if pathChar c then splitPathGo rest (c :: cur)
    else if cur.isEmpty then splitPathGo rest []
    else String.mk cur.reverse :: splitPathGo rest []

/-- `target.split(/[.\[\]]/).filter(Boolean)`. -/
def splitPath (s : String) : List String := splitPathGo s.toList []

structure GVE where
  has : Bool
  value : JSValue
deriving DecidableEq

/-- `current == null` (loose): `null` or `undefined`. -/
def isNullish : JSValue → Bool
  | JSValue.undef => true
  | JSValue.null => true
  | _ => false

/-- `key in v` for an object reference (array indices count as keys). -/
def jsHasProp (heap : Heap) (v : JSValue) (key : String) : Bool :=
  match v with
  | JSValue.objRef oid =>
    match heapFind heap oid with
    | some (HObj.plain fs) => fs.any (fun p => p.1 == key)
    | some (HObj.arr es) =>
      match key.toNat? with
      | some i => decide (i < es.length)
      | none => false
    | none => false
  | _ => false

/-- `v[key]` for an object reference. -/
def jsGetProp (heap : Heap) (v : JSValue) (key : String) : JSValue :=
  match v with
  | JSValue.objRef oid =>
    match heapFind heap oid with
    | some (HObj.plain fs) => (alookup fs key).getD JSValue.undef
    | some (HObj.arr es) =>
      match key.toNat? with
      | some i => es.getD i JSValue.undef
      | none => JSValue.undef
    | none => JSValue.undef
  | _ => JSValue.undef

/-- The walker's cursor: the scope object itself, or a value read from
it. -/
inductive Cur where
  | root
  | val (v : JSValue)

/-- The final `current[laskey]` read of `getValueFromExpression`: reading a
property of `null`/`undefined` raises; a primitive is boxed and reads as
`undefined`. -/
def gveFinal (vars : List (String × JSValue)) (heap : Heap) (cur : Cur)
    (laskey : String) : Except JSError GVE :=
  match cur with
  | Cur.root =>
    Except.ok { has := true
                value := (alookup vars laskey).getD JSValue.undef }
  | Cur.val v =>
    if isNullish v then
      Except.error (JSError.typeError "Cannot read properties of null")
    else Except.ok { has := true, value := jsGetProp heap v laskey }

/-- The walk over all parts but the last: on a nullish or key-less current
return `{has: false, value: undefined}`; `key in current` on a primitive
non-null current raises a TypeError; at the last part hand over to the
final read (an empty part list reads the property named `undefined`). -/
def gveGo (vars : List (String × JSValue)) (heap : Heap) :
    List String → Cur → Except JSError GVE
  | [], cur => gveFinal vars heap cur "undefined"
  | [laskey], cur => gveFinal vars heap cur laskey
  | key :: k2 :: rest, cur =>
    match cur with
    | Cur.root =>
      match alookup vars key with
      | some v => gveGo vars heap (k2 :: rest) (Cur.val v)
      | none => Except.ok { has := false, value := JSValue.undef }
    | Cur.val v =>
      if isNullish v then Except.ok { has := false, value := JSValue.undef }
      else
        match v with
        | JSValue.objRef _ =>
          if jsHasProp heap v key then
            gveGo vars heap (k2 :: rest) (Cur.val (jsGetProp heap v key))
          else Except.ok { has := false, value := JSValue.undef }
        | _ =>
          Except.error (JSError.typeError
            "Cannot use the in operator on a non-object")

/-- `getValueFromExpression(variables, target)`. -/
def getValueFromExpression (vars : List (String × JSValue))
    (heap : Heap) (target : String) : Except JSError GVE :=
  gveGo vars heap (splitPath target) Cur.root

/-- Outcome of the loop `update` closure's source fetch: whether the
non-array `console.error` fired, and either the element list to iterate or
the exception that escapes. -/
structure FetchResult where
  logged : Bool
  outcome : Except JSError (List JSValue)
deriving DecidableEq

/-- The head of the loop `update` closure:
`let value = getValueFromExpression(vars, arrayName).value || []` and
`const newItems = value ? value : null`.  `[]` is truthy, so `newItems` is
the fetched value whenever that is truthy and the fresh empty array
otherwise; when `newItems` is not an array the error is logged — and then
`newItems.forEach(...)` is called anyway, raising a TypeError because a
non-array has no `forEach`. -/
def eachFetchItems (vars : List (String × JSValue)) (heap : Heap)
    (arrayName : String) : FetchResult :=
  match getValueFromExpression vars heap arrayName with
  | Except.error e => { logged := false, outcome := Except.error e }
  | Except.ok gve =>
    if truthy gve.value then
      match gve.value with
      | JSValue.objRef oid =>
        match heapFind heap oid with
        | some (HObj.arr es) => { logged := false, outcome := Except.ok es }
        | _ =>
          { logged := true
            outcome := Except.error (JSError.typeError
              "newItems.forEach is not a function") }
      | _ =>
        { logged := true
          outcome := Except.error (JSError.typeError
            "newItems.forEach is not a function") }
    else { logged := false, outcome := Except.ok [] }

/-- C10: a truthy non-array loop source (here the number 5 under the key
`nums`) is indeed logged — but the update then calls `forEach` on it
anyway, raising a TypeError that escapes the update (so parsing of sibling
regions is aborted rather than continuing).  A falsy source degrades to
the fresh empty array without logging, and an actual array iterates
normally. -/
theorem c10_nonarray_source_logs_then_raises :
    (eachFetchItems [("nums", JSValue.num 5)] [] "nums").logged = true ∧
    (eachFetchItems [("nums", JSValue.num 5)] [] "nums").outcome =
      Except.error (JSError.typeError "newItems.forEach is not a function") ∧
    (eachFetchItems [("nums", JSValue.undef)] [] "nums").logged = false ∧
    (eachFetchItems [("nums", JSValue.undef)] [] "nums").outcome =
      Except.ok [] ∧
    (eachFetchItems [("nums", JSValue.objRef 7)]
        [(7, HObj.arr [JSValue.num 1])] "nums").outcome =
      Except.ok [JSValue.num 1] := by
  refine ⟨by decide, by decide, by decide, by decide, by decide⟩
